import Mathlib

/-!
# Substitution ciphers: a shallow embedding

A Lean model of `subtitution_ciphers.py`: the constant `ALPHABET`, the
`normalizeText` decorator shared by all ciphers, and the five cipher
classes `Atbash`, `Caesar`, `TabulaRecta`, `AutoKey` and `Vigenere`.
Python strings are modelled as `List Char`; Python exceptions as
`Except PyErr`; Python's `%` on integers (result has the divisor's sign)
as `Int.emod`; Python's `str.isalpha`/`str.upper` via Lean's ASCII
`Char.isAlpha`/`Char.toUpper`, matching Python exactly on the ASCII range
(the spec declares Unicode alphabets a non-goal).
-/

/-- `ALPHABET = "ABCDEFGHIJKLMNOPQRSTUVWXYZ"`, as its list of characters. -/
def ALPHABET : List Char :=
  ['A','B','C','D','E','F','G','H','I','J','K','L','M',
   'N','O','P','Q','R','S','T','U','V','W','X','Y','Z']

/-- The Python exceptions the modelled code can raise. -/
inductive PyErr where
  | typeError
  | valueError
  | indexError
  | zeroDivisionError
deriving DecidableEq

deriving instance DecidableEq for Except

/-- Python `lst.index(c)`: first position of `c`, `ValueError` when absent. -/
def pyIndex (l : List Char) (c : Char) : Except PyErr Nat :=
  match l.indexOf? c with
  | some i => .ok i
  | none => .error .valueError

/-- `ALPHABET.index(c)` as used throughout the source. -/
def charIndex (c : Char) : Except PyErr Nat := pyIndex ALPHABET c

/-- Python subscript `l[i]` for a nonnegative index: `IndexError` out of range. -/
def listAt (l : List Char) (i : Nat) : Except PyErr Char :=
  match l.get? i with
  | some c => .ok c
  | none => .error .indexError

/-- The `Cipher.normalizeText` decorator body: keep the alphabetic characters
of the input, uppercased, in order.  Both `encryptText` and `decryptText` of
every cipher run this on their text argument before the cipher body. -/
def normalizeText (text : List Char) : List Char :=
  text.filterMap (fun c => if c.isAlpha then some c.toUpper else none)

/-- All characters of `l` are symbols of `ALPHABET`. -/
abbrev allALPHA (l : List Char) : Prop := ∀ c ∈ l, c ∈ ALPHABET

/-- The `for char in text: newText += f(char)` accumulation loop shared by the
ciphers whose per-character step `f` does not depend on the position. -/
def mapExcept (f : Char → Except PyErr Char) : List Char → Except PyErr (List Char)
  | [] => .ok []
  | c :: rest => do
    let nc ← f c
    let tail ← mapExcept f rest
    pure (nc :: tail)

/-- One loop iteration of `Atbash.encryptText`/`Caesar.encryptText`:
`index = ALPHABET.index(char); newChar = alpha[index]`. -/
def substChar (alpha : List Char) (c : Char) : Except PyErr Char := do
  let i ← charIndex c
  listAt alpha i

/-- One loop iteration of `Caesar.decryptText`:
`index = self.alpha.index(char); newChar = ALPHABET[index]`. -/
def unsubstChar (alpha : List Char) (c : Char) : Except PyErr Char := do
  let i ← pyIndex alpha c
  listAt ALPHABET i

/-- `ALPHABET[s:] + ALPHABET[:s]`: the alphabet rotated left by `s`. -/
def alphaRot (s : Nat) : List Char := ALPHABET.drop s ++ ALPHABET.take s

/-- `Atbash.__init__`: `self.alpha = ALPHABET[::-1]`. -/
def Atbash.alpha : List Char := ALPHABET.reverse

/-- `Atbash.encryptText`: normalize, then substitute each character by the one
at the same index in the reversed alphabet. -/
def Atbash.encryptText (text : List Char) : Except PyErr (List Char) :=
  mapExcept (substChar Atbash.alpha) (normalizeText text)

/-- `Atbash.decryptText`: normalize, then `return self.encryptText(text)`. -/
def Atbash.decryptText (text : List Char) : Except PyErr (List Char) :=
  Atbash.encryptText (normalizeText text)

/-- The `Caesar` instance state: the shifted alphabet `self.alpha`. -/
structure Caesar where
  alpha : List Char
deriving DecidableEq

/-- `Caesar.__init__`: `shift = shift % len(ALPHABET)` (Python `%`, so the
result is in `[0, 26)` for any integer), then
`self.alpha = ALPHABET[shift:] + ALPHABET[:shift]`.  The Python default for
`shift` is 13. -/
def Caesar.init (shift : Int) : Caesar := ⟨alphaRot (shift.emod 26).toNat⟩

/-- `Caesar.encryptText`: substitute via `ALPHABET.index` then `self.alpha[·]`. -/
def Caesar.encryptText (cz : Caesar) (text : List Char) : Except PyErr (List Char) :=
  mapExcept (substChar cz.alpha) (normalizeText text)

/-- `Caesar.decryptText`: substitute via `self.alpha.index` then `ALPHABET[·]`. -/
def Caesar.decryptText (cz : Caesar) (text : List Char) : Except PyErr (List Char) :=
  mapExcept (unsubstChar cz.alpha) (normalizeText text)

/-- The `TabulaRecta` instance state: the rotated alphabet `self.alpha` and the
construction-time `self.defaultShift`. -/
structure TabulaRecta where
  alpha : List Char
  defaultShift : Int
deriving DecidableEq

/-- Body of `TabulaRecta.offset`: `shift % 26`, then slice-and-rejoin. -/
def offsetAlpha (shift : Int) : List Char := alphaRot (shift.emod 26).toNat

/-- `TabulaRecta.__init__`: `self.offset(shift); self.defaultShift = shift`. -/
def TabulaRecta.init (shift : Int) : TabulaRecta := ⟨offsetAlpha shift, shift⟩

/-- `TabulaRecta.rotate`: `step = step % 26; if step != 0: self.alpha =
self.alpha[step:] + self.alpha[:step]`. -/
def trRotate (alpha : List Char) (step : Int) : List Char :=
  let s := (step.emod 26).toNat
  if s ≠ 0 then alpha.drop s ++ alpha.take s else alpha

/-- The `for char in text` loop of `TabulaRecta.encryptText`: substitute with
the current `alpha`, then `self.rotate(step)`.  Returns the accumulated text
(or the exception) together with the value of `self.alpha` when the loop
ends (or when the exception escapes). -/
def trLoop : List Char → List Char → Int → Except PyErr (List Char) × List Char
  | [], alpha, _ => (.ok [], alpha)
  | c :: rest, alpha, step =>
    match charIndex c with
    | .error e => (.error e, alpha)
    | .ok i =>
      match alpha.get? i with
      | none => (.error .indexError, alpha)
      | some nc =>
        let r := trLoop rest (trRotate alpha step) step
        (Except.map (fun l => nc :: l) r.1, r.2)

/-- `TabulaRecta.encryptText(text, shift=0, step=1)`: normalize, run
`self.offset(shift or self.defaultShift)` (Python truthiness: an explicit
`shift` of 0 falls back to the default), loop, then reset with
`self.offset(self.defaultShift)`.  Returns the result together with the
updated instance (on an exception, `self.alpha` is wherever the loop left it
and the final reset is not reached). -/
def TabulaRecta.encryptText (tr : TabulaRecta) (text : List Char)
    (shift : Int) (step : Int) : Except PyErr (List Char) × TabulaRecta :=
  let eff := if shift ≠ 0 then shift else tr.defaultShift
  let r := trLoop (normalizeText text) (offsetAlpha eff) step
  match r.1 with
  | .ok res => (.ok res, { tr with alpha := offsetAlpha tr.defaultShift })
  | .error e => (.error e, { tr with alpha := r.2 })

/-- `TabulaRecta.decryptText(text, shift=None, step=1)`: normalize, then
`return self.encryptText(text, -shift or -self.defaultShift, -step)`.
Evaluating `-shift` on the default `None` raises `TypeError` before anything
else happens; with an integer shift, Python truthiness makes the second
argument `-shift` when it is nonzero and `-self.defaultShift` otherwise. -/
def TabulaRecta.decryptText (tr : TabulaRecta) (text : List Char)
    (shift : Option Int) (step : Int) : Except PyErr (List Char) × TabulaRecta :=
  match shift with
  | none => (.error .typeError, tr)
  | some s =>
    let arg := if -s ≠ 0 then -s else -tr.defaultShift
    tr.encryptText (normalizeText text) arg (-step)

/-- `AutoKey.__init__`: takes no parameters and does nothing. -/
def AutoKey.init : Unit := ()

/-- The `for char, k in zip(text, key)` loop of `AutoKey.encryptText`:
`newChar = ALPHABET[(ALPHABET.index(char) + ALPHABET.index(k)) % 26]`. -/
def akEncLoop : List (Char × Char) → Except PyErr (List Char)
  | [] => .ok []
  | (c, k) :: rest => do
    let i1 ← charIndex c
    let i2 ← charIndex k
    let nc ← listAt ALPHABET ((i1 + i2) % 26)
    let tail ← akEncLoop rest
    pure (nc :: tail)

/-- `AutoKey.encryptText(text, primer)`: normalize the text (the primer is
used as supplied), set `key = primer + text`, and run the zip loop. -/
def AutoKey.encryptText (text primer : List Char) : Except PyErr (List Char) :=
  let t := normalizeText text
  akEncLoop (t.zip (primer ++ t))

/-- The `for i, char in enumerate(text)` loop of `AutoKey.decryptText`:
`key[i]` (an `IndexError` when the growing key is too short), subtract the
indices mod 26, and append the recovered character to the key before the
next iteration. -/
def akDecLoop : Nat → List Char → List Char → Except PyErr (List Char)
  | _, _, [] => .ok []
  | i, key, c :: rest => do
    let i1 ← charIndex c
    let kc ← listAt key i
    let i2 ← charIndex kc
    let nc ← listAt ALPHABET (((i1 : Int) - i2).emod 26).toNat
    let tail ← akDecLoop (i + 1) (key ++ [nc]) rest
    pure (nc :: tail)

/-- `AutoKey.decryptText(text, primer)`: normalize the text, start with
`key = primer`, and run the growing-key loop from position 0. -/
def AutoKey.decryptText (text primer : List Char) : Except PyErr (List Char) :=
  akDecLoop 0 primer (normalizeText text)

/-- `Vigenere.__init__`: takes no parameters and does nothing. -/
def Vigenere.init : Unit := ()

/-- Python `key[i % len(key)]`: `ZeroDivisionError` when the key is empty. -/
def pyModGet (key : List Char) (i : Nat) : Except PyErr Char :=
  if key.length = 0 then .error .zeroDivisionError
  else listAt key (i % key.length)

/-- The `for i, char in enumerate(text)` loop of `Vigenere.encryptText`:
add the text index and the index of `key[i % len(key)]` mod 26. -/
def vigEncLoop (key : List Char) : Nat → List Char → Except PyErr (List Char)
  | _, [] => .ok []
  | i, c :: rest => do
    let i1 ← charIndex c
    let kc ← pyModGet key i
    let i2 ← charIndex kc
    let nc ← listAt ALPHABET ((i1 + i2) % 26)
    let tail ← vigEncLoop key (i + 1) rest
    pure (nc :: tail)

/-- The loop of `Vigenere.decryptText`: subtract instead of add. -/
def vigDecLoop (key : List Char) : Nat → List Char → Except PyErr (List Char)
  | _, [] => .ok []
  | i, c :: rest => do
    let i1 ← charIndex c
    let kc ← pyModGet key i
    let i2 ← charIndex kc
    let nc ← listAt ALPHABET (((i1 : Int) - i2).emod 26).toNat
    let tail ← vigDecLoop key (i + 1) rest
    pure (nc :: tail)

/-- `Vigenere.encryptText(text, key)`: normalize the text (the key is used as
supplied) and run the cyclic-key loop from position 0. -/
def Vigenere.encryptText (text key : List Char) : Except PyErr (List Char) :=
  vigEncLoop key 0 (normalizeText text)

/-- `Vigenere.decryptText(text, key)`: the same loop, subtracting. -/
def Vigenere.decryptText (text key : List Char) : Except PyErr (List Char) :=
  vigDecLoop key 0 (normalizeText text)

/-- Total index of `c` in `ALPHABET` (26 when absent); used to state
characterizations of the loops. -/
def alphaIdx (c : Char) : Nat := (ALPHABET.indexOf? c).getD 26

/-- The alphabet symbol at `n mod 26`; used to state characterizations. -/
def alphaAt (n : Nat) : Char := ALPHABET.getD (n % 26) 'A'

/-- Per-character addition `ALPHABET[(i1 + i2) % 26]`, totalised. -/
def addTotal (c k : Char) : Char := alphaAt (alphaIdx c + alphaIdx k)

/-- Per-character subtraction `ALPHABET[(i1 - i2) % 26]`, totalised. -/
def subTotal (c k : Char) : Char :=
  ALPHABET.getD (((alphaIdx c : Int) - alphaIdx k).emod 26).toNat 'A'

/-- Expected output of the Tabula Recta loop: at offset accumulator `a`
(with rotation step `s` per character), substitute and advance. -/
def trMap : List Char → Nat → Nat → List Char
  | [], _, _ => []
  | c :: rest, a, s => alphaAt (alphaIdx c + a) :: trMap rest ((a + s) % 26) s

/-- The per-character Atbash substitution, totalised. -/
def atbashFun (c : Char) : Char := Atbash.alpha.getD (alphaIdx c) 'A'

/-- Expected output of the Vigenère encryption loop from position `i`. -/
def vigMapAdd (key : List Char) : Nat → List Char → List Char
  | _, [] => []
  | i, c :: rest =>
    addTotal c (key.getD (i % key.length) 'A') :: vigMapAdd key (i + 1) rest

/-! ## Basic facts: alphabet membership and the normalizer -/

theorem toUpper_mem_of_isAlpha (c : Char) (h : c.isAlpha = true) :
    c.toUpper ∈ ALPHABET := by
  have hup : ∀ n < 123, 65 ≤ n → n ≤ 90 → Char.ofNat n ∈ ALPHABET := by decide
  have hlo : ∀ n < 123, 97 ≤ n → n ≤ 122 → Char.ofNat (n - 32) ∈ ALPHABET := by decide
  simp only [Char.isAlpha, Bool.or_eq_true] at h
  rcases h with h | h
  · simp only [Char.isUpper, Bool.and_eq_true, decide_eq_true_eq] at h
    obtain ⟨h1, h2⟩ := h
    have h1' : 65 ≤ c.toNat := h1
    have h2' : c.toNat ≤ 90 := h2
    have hfix : c.toUpper = c := by
      simp only [Char.toUpper]
      rw [if_neg]
      omega
    rw [hfix]
    have := hup c.toNat (by omega) h1' h2'
    rwa [Char.ofNat_toNat] at this
  · simp only [Char.isLower, Bool.and_eq_true, decide_eq_true_eq] at h
    obtain ⟨h1, h2⟩ := h
    have h1' : 97 ≤ c.toNat := h1
    have h2' : c.toNat ≤ 122 := h2
    have heq : c.toUpper = Char.ofNat (c.toNat - 32) := by
      simp only [Char.toUpper]
      rw [if_pos]
      omega
    rw [heq]
    exact hlo c.toNat (by omega) h1' h2'

theorem mem_ALPHA_fix :
    ∀ c ∈ ALPHABET, c.isAlpha = true ∧ c.toUpper = c ∧ c.isUpper = true := by decide

theorem normalizeText_allALPHA (t : List Char) : allALPHA (normalizeText t) := by
  induction t with
  | nil => intro x hx; simp [normalizeText] at hx
  | cons c rest ih =>
    intro x hx
    by_cases h : c.isAlpha
    · simp only [normalizeText, List.filterMap_cons, h, if_pos] at hx
      rcases List.mem_cons.mp hx with h1 | h1
      · subst h1; exact toUpper_mem_of_isAlpha c h
      · exact ih x h1
    · simp only [normalizeText, List.filterMap_cons, h, if_neg, Bool.false_eq_true] at hx
      exact ih x hx

theorem normalizeText_fix : ∀ l : List Char, allALPHA l → normalizeText l = l := by
  intro l h
  induction l with
  | nil => rfl
  | cons c rest ih =>
    have hc := mem_ALPHA_fix c (h c (List.mem_cons_self c rest))
    simp only [normalizeText, List.filterMap_cons, hc.1, if_pos, hc.2.1]
    rw [show List.filterMap (fun c => if c.isAlpha then some c.toUpper else none) rest
        = normalizeText rest from rfl]
    rw [ih (fun x hx => h x (List.mem_cons_of_mem c hx))]

theorem normalizeText_idem (t : List Char) :
    normalizeText (normalizeText t) = normalizeText t :=
  normalizeText_fix _ (normalizeText_allALPHA t)

/-! ## Generic facts about the accumulation loop -/

theorem mapExcept_eq_ok {f : Char → Except PyErr Char} {g : Char → Char} :
    ∀ l : List Char, (∀ c ∈ l, f c = .ok (g c)) → mapExcept f l = .ok (l.map g) := by
  intro l h
  induction l with
  | nil => rfl
  | cons c rest ih =>
    simp only [mapExcept, h c (List.mem_cons_self c rest),
      ih (fun x hx => h x (List.mem_cons_of_mem c hx)), List.map_cons]
    rfl

theorem mapExcept_map_eq_ok {f : Char → Except PyErr Char} {g : Char → Char} :
    ∀ l : List Char, (∀ c ∈ l, f (g c) = .ok c) → mapExcept f (l.map g) = .ok l := by
  intro l h
  induction l with
  | nil => rfl
  | cons c rest ih =>
    simp only [List.map_cons, mapExcept, h c (List.mem_cons_self c rest),
      ih (fun x hx => h x (List.mem_cons_of_mem c hx))]
    rfl

/-! ## Per-character facts, by evaluation -/

theorem charIndex_ok : ∀ c ∈ ALPHABET, charIndex c = .ok (alphaIdx c) ∧ alphaIdx c < 26 := by
  decide

theorem atbash_char_ok : ∀ c ∈ ALPHABET, substChar Atbash.alpha c = .ok (atbashFun c) := by
  decide

theorem atbash_fun_mem : ∀ c ∈ ALPHABET, atbashFun c ∈ ALPHABET := by decide

theorem atbash_char_inv : ∀ c ∈ ALPHABET, atbashFun (atbashFun c) = c := by decide

theorem atbash_fun_reverse :
    ∀ c ∈ ALPHABET, atbashFun c = ALPHABET.getD (25 - alphaIdx c) 'A' := by decide

/-! ## Atbash characterization -/

theorem atbash_enc (t : List Char) :
    Atbash.encryptText t = .ok ((normalizeText t).map atbashFun) :=
  mapExcept_eq_ok _ (fun c hc => atbash_char_ok c (normalizeText_allALPHA t c hc))

theorem atbash_out_allALPHA (t : List Char) :
    allALPHA ((normalizeText t).map atbashFun) := by
  intro x hx
  obtain ⟨c, hc, rfl⟩ := List.mem_map.mp hx
  exact atbash_fun_mem c (normalizeText_allALPHA t c hc)

theorem atbash_enc_of_out (t : List Char) :
    Atbash.encryptText ((normalizeText t).map atbashFun) = .ok (normalizeText t) := by
  unfold Atbash.encryptText
  rw [normalizeText_fix _ (atbash_out_allALPHA t)]
  exact mapExcept_map_eq_ok _ (fun c hc => by
    have h1 := normalizeText_allALPHA t c hc
    rw [show substChar Atbash.alpha (atbashFun c) = .ok (atbashFun (atbashFun c)) from
      atbash_char_ok _ (atbash_fun_mem c h1), atbash_char_inv c h1])

theorem atbash_dec_eq_enc (t : List Char) :
    Atbash.decryptText t = Atbash.encryptText t := by
  unfold Atbash.decryptText Atbash.encryptText
  rw [normalizeText_idem]

/-! ## Caesar characterization -/

theorem caesar_char_ok :
    ∀ s < 26, ∀ c ∈ ALPHABET, substChar (alphaRot s) c = .ok (alphaAt (alphaIdx c + s)) := by
  decide

theorem alphaAt_mem (n : Nat) : alphaAt n ∈ ALPHABET := by
  have h : ∀ m < 26, ALPHABET.getD m 'A' ∈ ALPHABET := by decide
  exact h (n % 26) (Nat.mod_lt _ (by omega))

theorem caesar_char_inv :
    ∀ s < 26, ∀ c ∈ ALPHABET, unsubstChar (alphaRot s) (alphaAt (alphaIdx c + s)) = .ok c := by
  decide

theorem caesar_char_id : ∀ c ∈ ALPHABET, substChar (alphaRot 0) c = .ok c := by decide

theorem emod26_toNat_lt (x : Int) : (x.emod 26).toNat < 26 := by
  have h1 : 0 ≤ x.emod 26 := Int.emod_nonneg x (by norm_num)
  have h2 : x.emod 26 < 26 := Int.emod_lt_of_pos x (by norm_num)
  omega

theorem caesar_enc (shift : Int) (t : List Char) :
    (Caesar.init shift).encryptText t
      = .ok ((normalizeText t).map (fun c => alphaAt (alphaIdx c + (shift.emod 26).toNat))) :=
  mapExcept_eq_ok _ (fun c hc =>
    caesar_char_ok _ (emod26_toNat_lt shift) c (normalizeText_allALPHA t c hc))

theorem caesar_out_allALPHA (shift : Int) (t : List Char) :
    allALPHA ((normalizeText t).map (fun c => alphaAt (alphaIdx c + (shift.emod 26).toNat))) := by
  intro x hx
  obtain ⟨c, hc, rfl⟩ := List.mem_map.mp hx
  exact alphaAt_mem _

theorem caesar_dec_of_out (shift : Int) (t : List Char) :
    (Caesar.init shift).decryptText
        ((normalizeText t).map (fun c => alphaAt (alphaIdx c + (shift.emod 26).toNat)))
      = .ok (normalizeText t) := by
  unfold Caesar.decryptText
  rw [normalizeText_fix _ (caesar_out_allALPHA shift t)]
  exact mapExcept_map_eq_ok _ (fun c hc =>
    caesar_char_inv _ (emod26_toNat_lt shift) c (normalizeText_allALPHA t c hc))

/-! ## Vigenère / Autokey shared per-character facts -/

theorem ok_bind {α β : Type} (a : α) (f : α → Except PyErr β) :
    (Except.ok a >>= f) = f a := rfl

theorem listAt_of_lt {l : List Char} {m : Nat} (h : m < l.length) :
    listAt l m = .ok (l.getD m 'A') := by
  unfold listAt
  rw [List.get?_eq_getElem?, List.getElem?_eq_getElem h, List.getD_eq_getElem?_getD,
    List.getElem?_eq_getElem h]
  rfl

theorem getD_mem {l : List Char} {m : Nat} (h : m < l.length) : l.getD m 'A' ∈ l := by
  rw [List.getD_eq_getElem?_getD, List.getElem?_eq_getElem h]
  exact List.getElem_mem h

theorem listAt_add :
    ∀ c ∈ ALPHABET, ∀ k ∈ ALPHABET,
      listAt ALPHABET ((alphaIdx c + alphaIdx k) % 26) = .ok (addTotal c k) := by decide

theorem listAt_sub :
    ∀ c ∈ ALPHABET, ∀ k ∈ ALPHABET,
      listAt ALPHABET (((alphaIdx c : Int) - alphaIdx k).emod 26).toNat
        = .ok (subTotal c k) := by decide

theorem sub_add_inv : ∀ c ∈ ALPHABET, ∀ k ∈ ALPHABET, subTotal (addTotal c k) k = c := by
  decide

theorem addTotal_mem (c k : Char) : addTotal c k ∈ ALPHABET := alphaAt_mem _

theorem pyModGet_ok {key : List Char} (hk : key ≠ []) (i : Nat) :
    pyModGet key i = .ok (key.getD (i % key.length) 'A') := by
  have hlen : key.length ≠ 0 := fun h => hk (List.length_eq_zero.mp h)
  unfold pyModGet
  rw [if_neg hlen]
  exact listAt_of_lt (Nat.mod_lt _ (Nat.pos_of_ne_zero hlen))

theorem keyChar_mem {key : List Char} (hk : key ≠ []) (hka : allALPHA key) (i : Nat) :
    key.getD (i % key.length) 'A' ∈ ALPHABET := by
  have hlen : key.length ≠ 0 := fun h => hk (List.length_eq_zero.mp h)
  exact hka _ (getD_mem (Nat.mod_lt _ (Nat.pos_of_ne_zero hlen)))

/-! ## Vigenère characterization -/

theorem vigEnc_ok {key : List Char} (hk : key ≠ []) (hka : allALPHA key) :
    ∀ (l : List Char) (i : Nat), allALPHA l →
      vigEncLoop key i l = .ok (vigMapAdd key i l) := by
  intro l
  induction l with
  | nil => intro i _; rfl
  | cons c rest ih =>
    intro i hl
    have hc := hl c (List.mem_cons_self c rest)
    have hkc := keyChar_mem hk hka i
    simp only [vigEncLoop, (charIndex_ok c hc).1, pyModGet_ok hk i,
      (charIndex_ok _ hkc).1, listAt_add c hc _ hkc,
      ih (i + 1) (fun x hx => hl x (List.mem_cons_of_mem c hx)), vigMapAdd, ok_bind]
    rfl

theorem vigMapAdd_allALPHA (key : List Char) :
    ∀ (l : List Char) (i : Nat), allALPHA (vigMapAdd key i l) := by
  intro l
  induction l with
  | nil => intro i x hx; simp [vigMapAdd] at hx
  | cons c rest ih =>
    intro i x hx
    rcases List.mem_cons.mp hx with h1 | h1
    · subst h1; exact addTotal_mem _ _
    · exact ih (i + 1) x h1

theorem vigDec_of_enc {key : List Char} (hk : key ≠ []) (hka : allALPHA key) :
    ∀ (l : List Char) (i : Nat), allALPHA l →
      vigDecLoop key i (vigMapAdd key i l) = .ok l := by
  intro l
  induction l with
  | nil => intro i _; rfl
  | cons c rest ih =>
    intro i hl
    have hc := hl c (List.mem_cons_self c rest)
    have hkc := keyChar_mem hk hka i
    have hac : addTotal c (key.getD (i % key.length) 'A') ∈ ALPHABET := addTotal_mem _ _
    simp only [vigMapAdd, vigDecLoop, (charIndex_ok _ hac).1, pyModGet_ok hk i,
      (charIndex_ok _ hkc).1, listAt_sub _ hac _ hkc, sub_add_inv c hc _ hkc,
      ih (i + 1) (fun x hx => hl x (List.mem_cons_of_mem c hx)), ok_bind]
    rfl

theorem vig_roundtrip {key : List Char} (t : List Char) (hk : key ≠ [])
    (hka : allALPHA key) :
    Vigenere.encryptText t key = .ok (vigMapAdd key 0 (normalizeText t)) ∧
      Vigenere.decryptText (vigMapAdd key 0 (normalizeText t)) key
        = .ok (normalizeText t) := by
  constructor
  · exact vigEnc_ok hk hka _ 0 (normalizeText_allALPHA t)
  · unfold Vigenere.decryptText
    rw [normalizeText_fix _ (vigMapAdd_allALPHA key _ 0)]
    exact vigDec_of_enc hk hka _ 0 (normalizeText_allALPHA t)

/-! ## Autokey characterization -/

theorem getD_eq_getElem {l : List Char} {m : Nat} (h : m < l.length) :
    l.getD m 'A' = l[m] := by
  rw [List.getD_eq_getElem?_getD, List.getElem?_eq_getElem h]
  rfl

theorem charIndex_ok_inv {c : Char} {i : Nat} (h : charIndex c = .ok i) :
    i = alphaIdx c := by
  unfold charIndex pyIndex at h
  unfold alphaIdx
  cases hidx : ALPHABET.indexOf? c with
  | none => rw [hidx] at h; exact absurd h (by simp)
  | some j => rw [hidx] at h; simp at h; simp [h]

theorem listAt_ok_inv {l : List Char} {m : Nat} {c : Char} (h : listAt l m = .ok c) :
    m < l.length ∧ l.getD m 'A' = c := by
  unfold listAt at h
  cases hg : l.get? m with
  | none => rw [hg] at h; exact absurd h (by simp)
  | some x =>
    rw [hg] at h
    simp at h
    rw [List.get?_eq_getElem?] at hg
    have hm : m < l.length := by
      by_contra hm
      rw [List.getElem?_eq_none (by omega)] at hg
      exact absurd hg (by simp)
    refine ⟨hm, ?_⟩
    rw [getD_eq_getElem hm, ← h]
    have := List.getElem?_eq_getElem hm
    rw [this] at hg
    exact (Option.some.injEq _ _).mp hg

theorem akEnc_ok :
    ∀ pairs : List (Char × Char), (∀ p ∈ pairs, p.1 ∈ ALPHABET ∧ p.2 ∈ ALPHABET) →
      akEncLoop pairs = .ok (pairs.map (fun p => addTotal p.1 p.2)) := by
  intro pairs h
  induction pairs with
  | nil => rfl
  | cons p rest ih =>
    obtain ⟨h1, h2⟩ := h p (List.mem_cons_self p rest)
    simp only [akEncLoop, (charIndex_ok p.1 h1).1, (charIndex_ok p.2 h2).1,
      listAt_add p.1 h1 p.2 h2,
      ih (fun q hq => h q (List.mem_cons_of_mem p hq)), List.map_cons, ok_bind]
    rfl

theorem akDec_of_enc :
    ∀ (suf K : List Char) (i : Nat), allALPHA suf → allALPHA K → i < K.length →
      akDecLoop i K ((suf.zip ((K ++ suf).drop i)).map (fun p => addTotal p.1 p.2))
        = .ok suf := by
  intro suf
  induction suf with
  | nil => intro K i _ _ _; rfl
  | cons c rest ih =>
    intro K i hsa hKa hiK
    have hkc : K.getD i 'A' = K[i] := getD_eq_getElem hiK
    have hkcm : K.getD i 'A' ∈ ALPHABET := hKa _ (getD_mem hiK)
    have hcm : c ∈ ALPHABET := hsa c (List.mem_cons_self c rest)
    have hdrop : (K ++ c :: rest).drop i = K.getD i 'A' :: (K.drop (i + 1) ++ c :: rest) := by
      rw [List.drop_append_of_le_length (le_of_lt hiK), List.drop_eq_getElem_cons hiK,
        hkc, List.cons_append]
    rw [hdrop, List.zip_cons_cons, List.map_cons]
    have hacm : addTotal c (K.getD i 'A') ∈ ALPHABET := addTotal_mem _ _
    have htail :
        (rest.zip (K.drop (i + 1) ++ c :: rest)).map (fun p => addTotal p.1 p.2)
          = (rest.zip (((K ++ [c]) ++ rest).drop (i + 1))).map (fun p => addTotal p.1 p.2) := by
      rw [← List.append_cons, List.drop_append_of_le_length (by omega)]
    have hK' : allALPHA (K ++ [c]) := by
      intro x hx
      rcases List.mem_append.mp hx with h1 | h1
      · exact hKa x h1
      · rw [List.mem_singleton.mp h1]; exact hcm
    have hiK' : i + 1 < (K ++ [c]).length := by
      rw [List.length_append, List.length_singleton]; omega
    simp only [akDecLoop, (charIndex_ok _ hacm).1, listAt_of_lt hiK,
      (charIndex_ok _ hkcm).1, listAt_sub _ hacm _ hkcm, sub_add_inv c hcm _ hkcm,
      htail, ih (K ++ [c]) (i + 1) (fun x hx => hsa x (List.mem_cons_of_mem c hx)) hK' hiK',
      ok_bind]
    rfl

theorem akOut_allALPHA (pairs : List (Char × Char)) :
    allALPHA (pairs.map (fun p => addTotal p.1 p.2)) := by
  intro x hx
  obtain ⟨p, _, rfl⟩ := List.mem_map.mp hx
  exact addTotal_mem _ _

theorem ak_roundtrip (primer t : List Char) (hp : primer ≠ []) (hpa : allALPHA primer) :
    AutoKey.encryptText t primer
        = .ok (((normalizeText t).zip (primer ++ normalizeText t)).map
            (fun p => addTotal p.1 p.2)) ∧
      AutoKey.decryptText
          (((normalizeText t).zip (primer ++ normalizeText t)).map
            (fun p => addTotal p.1 p.2)) primer
        = .ok (normalizeText t) := by
  constructor
  · exact akEnc_ok _ (fun p hp' => by
      obtain ⟨h1, h2⟩ := List.of_mem_zip hp'
      refine ⟨normalizeText_allALPHA t p.1 h1, ?_⟩
      rcases List.mem_append.mp h2 with h3 | h3
      · exact hpa _ h3
      · exact normalizeText_allALPHA t _ h3)
  · unfold AutoKey.decryptText
    rw [normalizeText_fix _ (akOut_allALPHA _)]
    have h0 : (0 : Nat) < primer.length := List.length_pos.mpr hp
    have := akDec_of_enc (normalizeText t) primer 0 (normalizeText_allALPHA t) hpa h0
    rwa [List.drop_zero] at this

theorem error_bind {α β : Type} (e : PyErr) (f : α → Except PyErr β) :
    (Except.error e >>= f) = Except.error e := rfl

theorem pure_ok {α : Type} (a : α) : (pure a : Except PyErr α) = .ok a := rfl

theorem akDec_elem :
    ∀ (l K : List Char) (i : Nat) (p : List Char), akDecLoop i K l = .ok p →
      p.length = l.length ∧ ∀ k, k < p.length →
        p.getD k 'A' = subTotal (l.getD k 'A') ((K ++ p).getD (i + k) 'A') := by
  intro l
  induction l with
  | nil =>
    intro K i p h
    have hp : p = [] := by
      have h' : Except.ok ([] : List Char) = .ok p := h
      simpa using h'.symm
    subst hp
    exact ⟨rfl, fun k hk => absurd hk (by simp)⟩
  | cons c rest ih =>
    intro K i p h
    cases hc : charIndex c with
    | error e =>
      simp only [akDecLoop, hc, error_bind] at h
      exact absurd h (by simp)
    | ok i1 =>
      cases hkc : listAt K i with
      | error e =>
        simp only [akDecLoop, hc, hkc, ok_bind, error_bind] at h
        exact absurd h (by simp)
      | ok kc =>
        cases hkb : charIndex kc with
        | error e =>
          simp only [akDecLoop, hc, hkc, hkb, ok_bind, error_bind] at h
          exact absurd h (by simp)
        | ok i2 =>
          cases hnc : listAt ALPHABET (((i1 : Int) - i2).emod 26).toNat with
          | error e =>
            simp only [akDecLoop, hc, hkc, hkb, hnc, ok_bind, error_bind] at h
            exact absurd h (by simp)
          | ok nc =>
            cases htl : akDecLoop (i + 1) (K ++ [nc]) rest with
            | error e =>
              simp only [akDecLoop, hc, hkc, hkb, hnc, htl, ok_bind, error_bind] at h
              exact absurd h (by simp)
            | ok tail =>
              simp only [akDecLoop, hc, hkc, hkb, hnc, htl, ok_bind, pure_ok,
                Except.ok.injEq] at h
              subst h
              obtain ⟨hlen, helem⟩ := ih (K ++ [nc]) (i + 1) tail htl
              obtain ⟨hiK, hKi⟩ := listAt_ok_inv hkc
              have hi1 : i1 = alphaIdx c := charIndex_ok_inv hc
              have hi2 : i2 = alphaIdx kc := charIndex_ok_inv hkb
              have hnc' : nc = ALPHABET.getD (((i1 : Int) - i2).emod 26).toNat 'A' :=
                (listAt_ok_inv hnc).2.symm
              constructor
              · simpa using hlen
              · intro k hk
                cases k with
                | zero =>
                  have hKp : (K ++ nc :: tail).getD (i + 0) 'A' = kc := by
                    rw [Nat.add_zero, List.getD_append _ _ _ _ hiK, hKi]
                  rw [hKp]
                  simp only [List.getD_cons_zero]
                  rw [hnc', hi1, hi2]
                  rfl
                | succ k =>
                  have hk' : k < tail.length := by
                    simp only [List.length_cons] at hk; omega
                  have heq : (K ++ nc :: tail) = ((K ++ [nc]) ++ tail) := by
                    rw [← List.append_cons]
                  simp only [List.getD_cons_succ]
                  rw [heq, helem k hk']
                  have harith : i + 1 + k = i + (k + 1) := by omega
                  rw [harith]

/-! ## Tabula Recta characterization -/

theorem alphaRot_rotate :
    ∀ a < 26, ∀ s < 26,
      (if s ≠ 0 then (alphaRot a).drop s ++ (alphaRot a).take s else alphaRot a)
        = alphaRot ((a + s) % 26) := by decide

theorem trRotate_rot {a : Nat} (ha : a < 26) (step : Int) :
    trRotate (alphaRot a) step = alphaRot ((a + (step.emod 26).toNat) % 26) := by
  unfold trRotate
  exact alphaRot_rotate a ha _ (emod26_toNat_lt step)

theorem tr_char :
    ∀ a < 26, ∀ c ∈ ALPHABET,
      (alphaRot a).get? (alphaIdx c) = some (alphaAt (alphaIdx c + a)) := by decide

theorem trLoop_ok :
    ∀ (l : List Char) (a : Nat) (step : Int), a < 26 → allALPHA l →
      (trLoop l (alphaRot a) step).1 = .ok (trMap l a (step.emod 26).toNat) := by
  intro l
  induction l with
  | nil => intro a step _ _; rfl
  | cons c rest ih =>
    intro a step ha hl
    have hc := hl c (List.mem_cons_self c rest)
    have ha' : (a + (step.emod 26).toNat) % 26 < 26 := Nat.mod_lt _ (by omega)
    simp only [trLoop, (charIndex_ok c hc).1, tr_char a ha c hc, trRotate_rot ha step]
    rw [show (trLoop rest (alphaRot ((a + (step.emod 26).toNat) % 26)) step).1
        = .ok (trMap rest ((a + (step.emod 26).toNat) % 26) (step.emod 26).toNat) from
      ih _ step ha' (fun x hx => hl x (List.mem_cons_of_mem c hx))]
    rfl

theorem trMap_length : ∀ (l : List Char) (a s : Nat), (trMap l a s).length = l.length := by
  intro l
  induction l with
  | nil => intro a s; rfl
  | cons c rest ih => intro a s; simp only [trMap, List.length_cons, ih]

theorem trMap_allALPHA : ∀ (l : List Char) (a s : Nat), allALPHA (trMap l a s) := by
  intro l
  induction l with
  | nil => intro a s x hx; simp [trMap] at hx
  | cons c rest ih =>
    intro a s x hx
    rcases List.mem_cons.mp hx with h1 | h1
    · subst h1; exact alphaAt_mem _
    · exact ih _ _ x h1

theorem alphaAt_congr {x y : Nat} (h : x % 26 = y % 26) : alphaAt x = alphaAt y := by
  unfold alphaAt
  rw [h]

theorem trMap_get? :
    ∀ (l : List Char) (a s k : Nat), k < l.length →
      (trMap l a s).get? k = some (alphaAt (alphaIdx (l.getD k 'A') + a + k * s)) := by
  intro l
  induction l with
  | nil => intro a s k hk; simp at hk
  | cons c rest ih =>
    intro a s k hk
    cases k with
    | zero =>
      simp only [trMap, List.get?_eq_getElem?, List.getElem?_cons_zero, List.getD_cons_zero,
        Nat.zero_mul, Nat.add_zero]
    | succ k =>
      have hk' : k < rest.length := by simp only [List.length_cons] at hk; omega
      simp only [trMap, List.get?_eq_getElem?, List.getElem?_cons_succ, List.getD_cons_succ]
      rw [← List.get?_eq_getElem?, ih ((a + s) % 26) s k hk']
      refine congrArg some (alphaAt_congr ?_)
      rw [Nat.succ_mul]
      omega

theorem tr_char_inv :
    ∀ c ∈ ALPHABET, ∀ a < 26,
      alphaAt (alphaIdx (alphaAt (alphaIdx c + a)) + ((26 - a) % 26)) = c := by decide

theorem trMap_roundtrip :
    ∀ (l : List Char) (a a2 s s2 : Nat), a < 26 → a2 < 26 →
      (a + a2) % 26 = 0 → (s + s2) % 26 = 0 → allALPHA l →
      trMap (trMap l a s) a2 s2 = l := by
  intro l
  induction l with
  | nil => intro a a2 s s2 _ _ _ _ _; rfl
  | cons c rest ih =>
    intro a a2 s s2 ha ha2 hsum hstep hl
    have hc := hl c (List.mem_cons_self c rest)
    have ha2' : a2 = (26 - a) % 26 := by omega
    simp only [trMap, List.cons.injEq]
    constructor
    · rw [ha2']
      exact tr_char_inv c hc a ha
    · exact ih ((a + s) % 26) ((a2 + s2) % 26) s s2 (Nat.mod_lt _ (by omega))
        (Nat.mod_lt _ (by omega)) (by omega) hstep
        (fun x hx => hl x (List.mem_cons_of_mem c hx))

theorem offset_inv (E : Int) :
    (((E.emod 26).toNat + ((-E).emod 26).toNat) % 26 : Nat) = 0 := by
  have h3 : 0 ≤ E.emod 26 := Int.emod_nonneg E (by norm_num)
  have h4 : E.emod 26 < 26 := Int.emod_lt_of_pos E (by norm_num)
  have hneg : (-E).emod 26 = (26 - E.emod 26).emod 26 := by
    have a1 : (-E).emod 26 = (26 - E).emod 26 := @Int.neg_emod E 26
    have a2 : (26 - E).emod 26 = ((26 : Int).emod 26 - E.emod 26).emod 26 :=
      Int.sub_emod 26 E 26
    have a4 : ((26 : Int).emod 26 - E.emod 26).emod 26 = (-(E.emod 26)).emod 26 := by
      norm_num
    have a5 : (-(E.emod 26)).emod 26 = (26 - E.emod 26).emod 26 :=
      @Int.neg_emod (E.emod 26) 26
    rw [a1, a2, a4, a5]
  by_cases hr : E.emod 26 = 0
  · rw [hneg, hr]
    norm_num
  · have h26 : (26 - E.emod 26).emod 26 = 26 - E.emod 26 :=
      Int.emod_eq_of_lt (by omega) (by omega)
    rw [hneg, h26]
    omega

theorem tr_enc_fst (tr : TabulaRecta) (t : List Char) (s st : Int) :
    (tr.encryptText t s st).1
      = (trLoop (normalizeText t)
          (offsetAlpha (if s ≠ 0 then s else tr.defaultShift)) st).1 := by
  cases h : (trLoop (normalizeText t)
      (offsetAlpha (if s ≠ 0 then s else tr.defaultShift)) st).1 with
  | ok res => simp only [TabulaRecta.encryptText, h]
  | error e => simp only [TabulaRecta.encryptText, h]

theorem tr_enc_defaultShift (tr : TabulaRecta) (t : List Char) (s st : Int) :
    ((tr.encryptText t s st).2).defaultShift = tr.defaultShift := by
  cases h : (trLoop (normalizeText t)
      (offsetAlpha (if s ≠ 0 then s else tr.defaultShift)) st).1 with
  | ok res => simp only [TabulaRecta.encryptText, h]
  | error e => simp only [TabulaRecta.encryptText, h]

theorem tr_enc_ok (tr : TabulaRecta) (t : List Char) (s st : Int) :
    (tr.encryptText t s st).1
      = .ok (trMap (normalizeText t)
          (((if s ≠ 0 then s else tr.defaultShift).emod 26).toNat)
          (st.emod 26).toNat) := by
  rw [tr_enc_fst]
  exact trLoop_ok _ _ _ (emod26_toNat_lt _) (normalizeText_allALPHA t)

theorem tr_dec_fst (tr : TabulaRecta) (t : List Char) (s st : Int) :
    (tr.decryptText t (some s) st).1
      = (tr.encryptText (normalizeText t) (if -s ≠ 0 then -s else -tr.defaultShift)
          (-st)).1 := by
  rfl

theorem tr_eff_neg (s d : Int) :
    (if (if -s ≠ 0 then -s else -d) ≠ 0 then (if -s ≠ 0 then -s else -d) else d)
      = -(if s ≠ 0 then s else d) := by
  by_cases hs : s = 0
  · by_cases hd : d = 0
    · simp [hs, hd]
    · simp [hs, hd]
  · simp [hs, neg_ne_zero.mpr hs]

theorem tr_roundtrip (d s step : Int) (t : List Char) :
    ((TabulaRecta.init d).encryptText t s step).1
        = .ok (trMap (normalizeText t)
            (((if s ≠ 0 then s else d).emod 26).toNat) (step.emod 26).toNat) ∧
      ((((TabulaRecta.init d).encryptText t s step).2).decryptText
          (trMap (normalizeText t)
            (((if s ≠ 0 then s else d).emod 26).toNat) (step.emod 26).toNat)
          (some s) step).1
        = .ok (normalizeText t) := by
  have hds : (TabulaRecta.init d).defaultShift = d := rfl
  constructor
  · rw [tr_enc_ok, hds]
  · set E := if s ≠ 0 then s else d with hE
    set u := trMap (normalizeText t) ((E.emod 26).toNat) (step.emod 26).toNat with hu
    set tr' := ((TabulaRecta.init d).encryptText t s step).2 with htr'
    have hds' : tr'.defaultShift = d := by
      rw [htr', tr_enc_defaultShift, hds]
    rw [tr_dec_fst, tr_enc_ok, hds']
    have heff : (if (if -s ≠ 0 then -s else -d) ≠ 0 then (if -s ≠ 0 then -s else -d) else d)
        = -E := tr_eff_neg s d
    rw [heff]
    have hnu : normalizeText u = u := normalizeText_fix u (trMap_allALPHA _ _ _)
    rw [show normalizeText (normalizeText u) = u by rw [normalizeText_idem, hnu], hu]
    rw [trMap_roundtrip _ _ _ _ _ (emod26_toNat_lt _) (emod26_toNat_lt _)
      (offset_inv E) (offset_inv step) (normalizeText_allALPHA t)]

/-! ## Remaining helper lemmas -/

theorem tr_pos_bridge (io step : Int) (i k : Nat) :
    ((i + (io.emod 26).toNat + k * (step.emod 26).toNat) % 26 : Nat)
      = (((i : Int) + (io + (k : Int) * step)).emod 26).toNat := by
  have hA : ((io.emod 26).toNat : Int) = io.emod 26 :=
    Int.toNat_of_nonneg (Int.emod_nonneg io (by norm_num))
  have hS : (((step.emod 26).toNat : Int)) = step.emod 26 :=
    Int.toNat_of_nonneg (Int.emod_nonneg step (by norm_num))
  have hmod : ((i : Int) + (io.emod 26).toNat + k * (step.emod 26).toNat).emod 26
      = ((i : Int) + (io + (k : Int) * step)).emod 26 := by
    have h1 : ((io.emod 26).toNat : Int) ≡ io [ZMOD 26] := by
      rw [hA]
      exact Int.emod_emod_of_dvd io dvd_rfl
    have h2 : (((step.emod 26).toNat : Int)) ≡ step [ZMOD 26] := by
      rw [hS]
      exact Int.emod_emod_of_dvd step dvd_rfl
    have h3 : ((k : Int) * (step.emod 26).toNat) ≡ (k : Int) * step [ZMOD 26] :=
      Int.ModEq.mul_left _ h2
    have h4 := (Int.ModEq.refl (i : Int)).add (h1.add h3)
    calc ((i : Int) + (io.emod 26).toNat + k * (step.emod 26).toNat)
        = (i : Int) + (((io.emod 26).toNat : Int) + k * (step.emod 26).toNat) := by ring
      _ ≡ (i : Int) + (io + (k : Int) * step) [ZMOD 26] := h4
  have hcast : (((i + (io.emod 26).toNat + k * (step.emod 26).toNat) % 26 : Nat) : Int)
      = ((i : Int) + (io.emod 26).toNat + k * (step.emod 26).toNat).emod 26 := by
    push_cast
    rfl
  have hnn : 0 ≤ ((i : Int) + (io + (k : Int) * step)).emod 26 :=
    Int.emod_nonneg _ (by norm_num)
  omega

theorem tr_dec_defaultShift (tr : TabulaRecta) (t : List Char) (os : Option Int)
    (st : Int) : ((tr.decryptText t os st).2).defaultShift = tr.defaultShift := by
  cases os with
  | none => rfl
  | some s => exact tr_enc_defaultShift tr (normalizeText t) _ (-st)

theorem normalizeText_eq_map_filter (t : List Char) :
    normalizeText t = (t.filter Char.isAlpha).map Char.toUpper := by
  induction t with
  | nil => rfl
  | cons c rest ih =>
    by_cases h : c.isAlpha
    · simp only [normalizeText, List.filterMap_cons, h, if_pos, List.filter_cons_of_pos h,
        List.map_cons]
      rw [show List.filterMap (fun c => if c.isAlpha then some c.toUpper else none) rest
          = normalizeText rest from rfl, ih]
    · have hf : c.isAlpha = false := by simpa using h
      simp only [normalizeText, List.filterMap_cons, hf, Bool.false_eq_true, if_neg,
        not_false_iff, List.filter_cons_of_neg h]
      rw [show List.filterMap (fun c => if c.isAlpha then some c.toUpper else none) rest
          = normalizeText rest from rfl, ih]

/-! ## Claim theorems -/

/-- **C3**: for every input character sequence, the normalizer returns a
sequence containing only letters of the 26-letter `ALPHABET` (hence with a
valid index 0–25), uppercased, with length at most the input length and with
the input order preserved (the output is a sublist of the uppercased input). -/
theorem C3_normalizer (t : List Char) :
    (∀ c ∈ normalizeText t, c ∈ ALPHABET) ∧
      (∀ c ∈ normalizeText t, c.isUpper = true) ∧
      (normalizeText t).length ≤ t.length ∧
      (normalizeText t).Sublist (t.map Char.toUpper) := by
  refine ⟨normalizeText_allALPHA t, ?_, ?_, ?_⟩
  · intro c hc
    exact (mem_ALPHA_fix c (normalizeText_allALPHA t c hc)).2.2
  · exact List.length_filterMap_le _ t
  · rw [normalizeText_eq_map_filter]
    exact List.Sublist.map Char.toUpper (List.filter_sublist t)

/-- **C6** (counterexample): the spec's scenario is wrong on the code: Atbash
encryption of `"HELLO"` does not return `"SVCCL"` (and Atbash of `"SVCCL"` is
not `"HELLO"`): `L` maps to `O`, not to `C`. -/
theorem C6_atbash_counterexample :
    ¬(Atbash.encryptText "HELLO".toList = .ok "SVCCL".toList ∧
      Atbash.encryptText "SVCCL".toList = .ok "HELLO".toList) := by decide

/-- **C6** (amended): Atbash encryption of `"HELLO"` returns `"SVOOL"`, and
Atbash encryption of `"SVOOL"` returns `"HELLO"`. -/
theorem C6_atbash_amended :
    Atbash.encryptText "HELLO".toList = .ok "SVOOL".toList ∧
      Atbash.encryptText "SVOOL".toList = .ok "HELLO".toList := by decide

/-- **C10**: for every `TabulaRecta` instance and every text — the empty text
included — calling `decryptText` without an explicit shift (Python default
`None`) raises `TypeError`, because `-shift` is evaluated on `None` before
the `or` fallback; the instance state is left untouched. -/
theorem C10_decrypt_none_typeerror :
    (∀ (tr : TabulaRecta) (t : List Char) (st : Int),
        tr.decryptText t none st = (.error .typeError, tr)) ∧
      (∀ (tr : TabulaRecta) (st : Int),
        tr.decryptText [] none st = (.error .typeError, tr)) :=
  ⟨fun _ _ _ => rfl, fun _ _ => rfl⟩

/-- **C8**: a Caesar cipher built with any shift that is `0 mod 26` (in
particular 0 and 26) is the identity on normalized text, and any integer
shift is reduced `mod 26` at construction time. -/
theorem C8_caesar_identity :
    (∀ shift : Int, shift.emod 26 = 0 → ∀ t : List Char,
        (Caesar.init shift).encryptText t = .ok (normalizeText t)) ∧
      (∀ shift : Int, Caesar.init shift = Caesar.init (shift.emod 26)) ∧
      (∀ t : List Char, (Caesar.init 0).encryptText t = .ok (normalizeText t)) ∧
      (∀ t : List Char, (Caesar.init 26).encryptText t = .ok (normalizeText t)) := by
  have hmain : ∀ shift : Int, shift.emod 26 = 0 → ∀ t : List Char,
      (Caesar.init shift).encryptText t = .ok (normalizeText t) := by
    intro shift h t
    have halpha : (Caesar.init shift).alpha = alphaRot 0 := by
      unfold Caesar.init
      rw [h]
      rfl
    unfold Caesar.encryptText
    rw [halpha]
    have := mapExcept_eq_ok (g := id) (normalizeText t)
      (fun c hc => caesar_char_id c (normalizeText_allALPHA t c hc))
    rwa [List.map_id] at this
  refine ⟨hmain, ?_, hmain 0 (by norm_num), hmain 26 (by norm_num)⟩
  intro shift
  unfold Caesar.init
  have h2 : (shift.emod 26).emod 26 = shift.emod 26 := Int.emod_emod_of_dvd shift dvd_rfl
  rw [h2]

/-- **C8** witness: the identity-cipher part applied at `shift = 52` and the
text `"Hello, World"`. -/
theorem C8_caesar_identity_witness :
    (Caesar.init 52).encryptText "Hello, World".toList
      = .ok (normalizeText "Hello, World".toList) :=
  C8_caesar_identity.1 52 (by decide) "Hello, World".toList

/-- **C2** (counterexample): the constructors of `Vigenere` and `AutoKey`
take no key/primer at all and cannot fail; an empty key/primer instead
fails at transform time (`ZeroDivisionError` in `Vigenere.encryptText`,
`IndexError` in `AutoKey.decryptText`), contradicting the claim that the
failure occurs at construction time and never at transform time. -/
theorem C2_construction_counterexample :
    Vigenere.init = () ∧ AutoKey.init = () ∧
      Vigenere.encryptText ['A'] [] = .error .zeroDivisionError ∧
      AutoKey.decryptText ['A'] [] = .error .indexError := by decide

/-- **C2** (amended): `Vigenere.__init__` and `AutoKey.__init__` take no
parameters and never raise; the key/primer is a per-call argument and is not
validated anywhere.  With an empty key, `Vigenere.encryptText`/`decryptText`
raise `ZeroDivisionError` at transform time as soon as the normalized text is
nonempty, and `AutoKey.decryptText` raises `IndexError`; `AutoKey.encryptText`
with an empty primer does not raise at all. -/
theorem C2_invalid_key_at_transform_time :
    Vigenere.init = () ∧ AutoKey.init = () ∧
      (∀ t : List Char, Vigenere.encryptText t []
          = if normalizeText t = [] then .ok [] else .error .zeroDivisionError) ∧
      (∀ t : List Char, Vigenere.decryptText t []
          = if normalizeText t = [] then .ok [] else .error .zeroDivisionError) ∧
      (∀ t : List Char, AutoKey.decryptText t []
          = if normalizeText t = [] then .ok [] else .error .indexError) ∧
      (∀ t : List Char, ∃ u, AutoKey.encryptText t [] = .ok u) := by
  refine ⟨rfl, rfl, ?_, ?_, ?_, ?_⟩
  · intro t
    unfold Vigenere.encryptText
    cases h : normalizeText t with
    | nil => rfl
    | cons c rest =>
      have hc : c ∈ ALPHABET := normalizeText_allALPHA t c (h ▸ List.mem_cons_self c rest)
      rw [if_neg (by simp)]
      simp only [vigEncLoop, (charIndex_ok c hc).1, ok_bind]
      rfl
  · intro t
    unfold Vigenere.decryptText
    cases h : normalizeText t with
    | nil => rfl
    | cons c rest =>
      have hc : c ∈ ALPHABET := normalizeText_allALPHA t c (h ▸ List.mem_cons_self c rest)
      rw [if_neg (by simp)]
      simp only [vigDecLoop, (charIndex_ok c hc).1, ok_bind]
      rfl
  · intro t
    unfold AutoKey.decryptText
    cases h : normalizeText t with
    | nil => rfl
    | cons c rest =>
      have hc : c ∈ ALPHABET := normalizeText_allALPHA t c (h ▸ List.mem_cons_self c rest)
      rw [if_neg (by simp)]
      simp only [akDecLoop, (charIndex_ok c hc).1, ok_bind]
      rfl
  · intro t
    refine ⟨((normalizeText t).zip (normalizeText t)).map (fun p => addTotal p.1 p.2), ?_⟩
    unfold AutoKey.encryptText
    exact akEnc_ok _ (fun p hp => by
      obtain ⟨h1, h2⟩ := List.of_mem_zip hp
      rw [List.nil_append] at h2
      exact ⟨normalizeText_allALPHA t p.1 h1, normalizeText_allALPHA t p.2 h2⟩)

/-- **C1**: for every cipher variant and every text, decrypting the result of
encryption with the same parameters (same shift for Caesar; same shift
argument, instance offset and step for Tabula Recta, with the shift passed
explicitly at decryption; same non-empty normalized primer/key for
Autokey/Vigenère) returns the normalized text. -/
theorem C1_round_trip :
    (∀ t : List Char, ∃ u, Atbash.encryptText t = .ok u ∧
        Atbash.decryptText u = .ok (normalizeText t)) ∧
      (∀ (shift : Int) (t : List Char), ∃ u,
        (Caesar.init shift).encryptText t = .ok u ∧
          (Caesar.init shift).decryptText u = .ok (normalizeText t)) ∧
      (∀ (d s step : Int) (t : List Char), ∃ u,
        ((TabulaRecta.init d).encryptText t s step).1 = .ok u ∧
          ((((TabulaRecta.init d).encryptText t s step).2).decryptText u
              (some s) step).1 = .ok (normalizeText t)) ∧
      (∀ (primer t : List Char), primer ≠ [] → allALPHA primer →
        ∃ u, AutoKey.encryptText t primer = .ok u ∧
          AutoKey.decryptText u primer = .ok (normalizeText t)) ∧
      (∀ (key t : List Char), key ≠ [] → allALPHA key →
        ∃ u, Vigenere.encryptText t key = .ok u ∧
          Vigenere.decryptText u key = .ok (normalizeText t)) := by
  refine ⟨?_, ?_, ?_, ?_, ?_⟩
  · intro t
    refine ⟨(normalizeText t).map atbashFun, atbash_enc t, ?_⟩
    rw [atbash_dec_eq_enc]
    exact atbash_enc_of_out t
  · intro shift t
    exact ⟨_, caesar_enc shift t, caesar_dec_of_out shift t⟩
  · intro d s step t
    obtain ⟨h1, h2⟩ := tr_roundtrip d s step t
    exact ⟨_, h1, h2⟩
  · intro primer t hp hpa
    obtain ⟨h1, h2⟩ := ak_roundtrip primer t hp hpa
    exact ⟨_, h1, h2⟩
  · intro key t hk hka
    obtain ⟨h1, h2⟩ := vig_roundtrip t hk hka
    exact ⟨_, h1, h2⟩

/-- **C1** witness: the Autokey and Vigenère parts (the ones with
hypotheses) applied at the spec's concrete scenarios: primer `"LEMON"` with
text `"ATTACKATDAWN"`, and key `"KEY"` with text `"HELLOWORLD"`. -/
theorem C1_round_trip_witness :
    (∃ u, AutoKey.encryptText "ATTACKATDAWN".toList "LEMON".toList = .ok u ∧
        AutoKey.decryptText u "LEMON".toList
          = .ok (normalizeText "ATTACKATDAWN".toList)) ∧
      (∃ u, Vigenere.encryptText "HELLOWORLD".toList "KEY".toList = .ok u ∧
        Vigenere.decryptText u "KEY".toList
          = .ok (normalizeText "HELLOWORLD".toList)) :=
  ⟨C1_round_trip.2.2.2.1 "LEMON".toList "ATTACKATDAWN".toList (by decide) (by decide),
   C1_round_trip.2.2.2.2 "KEY".toList "HELLOWORLD".toList (by decide) (by decide)⟩

/-- **C4**: Tabula Recta rotation state never leaks across calls: the result
of `encryptText`/`decryptText` does not depend on the stored `alpha` (only on
`defaultShift` and the call arguments); every call preserves `defaultShift`;
and a call made after any earlier `encryptText` or `decryptText` call on the
same instance returns exactly what a fresh call returns. -/
theorem C4_no_state_leak :
    (∀ (a1 a2 : List Char) (d : Int) (t : List Char) (s st : Int),
        ((TabulaRecta.mk a1 d).encryptText t s st).1
          = ((TabulaRecta.mk a2 d).encryptText t s st).1) ∧
      (∀ (a1 a2 : List Char) (d : Int) (t : List Char) (os : Option Int) (st : Int),
        ((TabulaRecta.mk a1 d).decryptText t os st).1
          = ((TabulaRecta.mk a2 d).decryptText t os st).1) ∧
      (∀ (tr : TabulaRecta) (t : List Char) (s st : Int),
        ((tr.encryptText t s st).2).defaultShift = tr.defaultShift) ∧
      (∀ (tr : TabulaRecta) (t1 : List Char) (s1 st1 : Int) (t : List Char) (s st : Int),
        (((tr.encryptText t1 s1 st1).2).encryptText t s st).1
          = (tr.encryptText t s st).1) ∧
      (∀ (tr : TabulaRecta) (t1 : List Char) (os1 : Option Int) (st1 : Int)
          (t : List Char) (s st : Int),
        (((tr.decryptText t1 os1 st1).2).encryptText t s st).1
          = (tr.encryptText t s st).1) := by
  have hfst : ∀ (tr1 tr2 : TabulaRecta), tr1.defaultShift = tr2.defaultShift →
      ∀ (t : List Char) (s st : Int),
        (tr1.encryptText t s st).1 = (tr2.encryptText t s st).1 := by
    intro tr1 tr2 hd t s st
    rw [tr_enc_fst, tr_enc_fst, hd]
  refine ⟨?_, ?_, tr_enc_defaultShift, ?_, ?_⟩
  · intro a1 a2 d t s st
    exact hfst _ _ rfl t s st
  · intro a1 a2 d t os st
    cases os with
    | none => rfl
    | some s => exact hfst _ _ rfl (normalizeText t) _ (-st)
  · intro tr t1 s1 st1 t s st
    exact hfst _ _ (tr_enc_defaultShift tr t1 s1 st1) t s st
  · intro tr t1 os1 st1 t s st
    exact hfst _ _ (tr_dec_defaultShift tr t1 os1 st1) t s st

/-- **C5**: on a `TabulaRecta` built with initial offset `io`, encrypting a
normalized text with the default shift argument and rotation step `step`
substitutes the symbol with alphabet index `i` at position `k` by the symbol
at index `(i + (io + k*step)) mod 26`; in particular with offset 0 and step 1,
`"AAAA"` encrypts to `"ABCD"`. -/
theorem C5_tr_formula :
    (∀ (io step : Int) (t : List Char), allALPHA t →
      ∃ u, ((TabulaRecta.init io).encryptText t 0 step).1 = .ok u ∧
        u.length = t.length ∧
        ∀ (k i : Nat) (c : Char), t.get? k = some c → charIndex c = .ok i →
          u.get? k = some (ALPHABET.getD
            ((((i : Int) + (io + (k : Int) * step)).emod 26).toNat) 'A')) ∧
      ((TabulaRecta.init 0).encryptText "AAAA".toList 0 1).1 = .ok "ABCD".toList := by
  constructor
  · intro io step t ht
    have hnt : normalizeText t = t := normalizeText_fix t ht
    have henc := tr_enc_ok (TabulaRecta.init io) t 0 step
    rw [hnt] at henc
    have hif : (if (0 : Int) ≠ 0 then (0 : Int) else (TabulaRecta.init io).defaultShift)
        = io := by simp [TabulaRecta.init]
    rw [hif] at henc
    refine ⟨_, henc, trMap_length t _ _, ?_⟩
    intro k i c hk hci
    obtain ⟨hklen, -⟩ := List.get?_eq_some.mp hk
    have hgetD : t.getD k 'A' = c := by
      rw [List.getD_eq_getElem?_getD, ← List.get?_eq_getElem?, hk]
      rfl
    rw [trMap_get? t _ _ k hklen, hgetD]
    rw [charIndex_ok_inv hci]
    refine congrArg some ?_
    unfold alphaAt
    rw [tr_pos_bridge]
  · decide

/-- **C5** witness: the formula applied at offset 3, step 5 and the
normalized text `"HELLO"`. -/
theorem C5_tr_formula_witness :
    ∃ u, ((TabulaRecta.init 3).encryptText "HELLO".toList 0 5).1 = .ok u ∧
      u.length = "HELLO".toList.length ∧
      ∀ (k i : Nat) (c : Char),
        "HELLO".toList.get? k = some c → charIndex c = .ok i →
        u.get? k = some (ALPHABET.getD
          ((((i : Int) + (3 + (k : Int) * 5)).emod 26).toNat) 'A') :=
  C5_tr_formula.1 3 5 "HELLO".toList (by decide)

/-- **C7**: Atbash substitutes the symbol with alphabet index `i` by the
symbol at index `25 - i`, identically in `encryptText` and `decryptText`,
and is an involution: encrypting twice returns the normalized text. -/
theorem C7_atbash_involution :
    (∀ (t : List Char) (k i : Nat) (c : Char),
        (normalizeText t).get? k = some c → charIndex c = .ok i →
        ∃ u, Atbash.encryptText t = .ok u ∧ Atbash.decryptText t = .ok u ∧
          u.get? k = some (ALPHABET.getD (25 - i) 'A')) ∧
      (∀ t : List Char, ∃ u, Atbash.encryptText t = .ok u ∧
        Atbash.encryptText u = .ok (normalizeText t)) := by
  constructor
  · intro t k i c hk hci
    refine ⟨(normalizeText t).map atbashFun, atbash_enc t, ?_, ?_⟩
    · rw [atbash_dec_eq_enc]
      exact atbash_enc t
    · have hc : c ∈ ALPHABET := by
        obtain ⟨h, hget⟩ := List.get?_eq_some.mp hk
        rw [← hget]
        exact normalizeText_allALPHA t _ (List.get_mem _ _ h)
      rw [List.get?_map, hk]
      rw [charIndex_ok_inv hci]
      show some (atbashFun c) = some (ALPHABET.getD (25 - alphaIdx c) 'A')
      rw [atbash_fun_reverse c hc]
  · intro t
    exact ⟨_, atbash_enc t, atbash_enc_of_out t⟩

/-- **C7** witness: the per-position part applied at `t = "AB"`, position 0,
character `'A'` with index 0. -/
theorem C7_atbash_involution_witness :
    ∃ u, Atbash.encryptText "AB".toList = .ok u ∧
      Atbash.decryptText "AB".toList = .ok u ∧
      u.get? 0 = some (ALPHABET.getD (25 - 0) 'A') :=
  C7_atbash_involution.1 "AB".toList 0 0 'A' (by decide) (by decide)

/-- **C9**: Autokey keystream.  Encryption (on a normalized text) uses as key
symbol at position `k` the element `k` of `primer ++ plaintext` — that is,
`primer[k]` for `k < P` and `plaintext[k-P]` otherwise, so the key symbol at
position `P` is the plaintext symbol at position 0.  Decryption reconstructs
the key from its own output: whenever it succeeds with plaintext `p`, the
symbol recovered at position `k` is `(cipherIndex[k] - keyIndex[k]) mod 26`
with the key symbol taken from `primer ++ p` — the already-recovered
plaintext, appended to the key as the loop advances. -/
theorem C9_autokey_keystream :
    (∀ (primer t : List Char), allALPHA primer → allALPHA t →
      ∃ e, AutoKey.encryptText t primer = .ok e ∧ e.length = t.length ∧
        (∀ k, k < t.length →
          e.getD k 'A' = addTotal (t.getD k 'A') ((primer ++ t).getD k 'A')) ∧
        (∀ k, k < primer.length → (primer ++ t).getD k 'A' = primer.getD k 'A') ∧
        (∀ k, primer.length ≤ k →
          (primer ++ t).getD k 'A' = t.getD (k - primer.length) 'A') ∧
        (t ≠ [] → (primer ++ t).getD primer.length 'A' = t.getD 0 'A')) ∧
      (∀ (primer c p : List Char), AutoKey.decryptText c primer = .ok p →
        ∀ k, k < p.length →
          p.getD k 'A' = subTotal ((normalizeText c).getD k 'A')
            ((primer ++ p).getD k 'A')) := by
  constructor
  · intro primer t hpa ht
    have hnt : normalizeText t = t := normalizeText_fix t ht
    have henc : AutoKey.encryptText t primer
        = .ok ((t.zip (primer ++ t)).map (fun p => addTotal p.1 p.2)) := by
      unfold AutoKey.encryptText
      rw [hnt]
      exact akEnc_ok _ (fun p hp => by
        obtain ⟨h1, h2⟩ := List.of_mem_zip hp
        refine ⟨ht p.1 h1, ?_⟩
        rcases List.mem_append.mp h2 with h3 | h3
        · exact hpa _ h3
        · exact ht _ h3)
    have hzlen : (t.zip (primer ++ t)).length = t.length := by
      rw [List.length_zip, List.length_append]
      exact min_eq_left (by omega)
    have helen : ((t.zip (primer ++ t)).map (fun p => addTotal p.1 p.2)).length
        = t.length := by
      rw [List.length_map, hzlen]
    refine ⟨_, henc, helen, ?_, ?_, ?_, ?_⟩
    · intro k hk
      have hk1 : k < ((t.zip (primer ++ t)).map (fun p => addTotal p.1 p.2)).length := by
        omega
      have hk2 : k < (t.zip (primer ++ t)).length := by omega
      have hk3 : k < (primer ++ t).length := by
        rw [List.length_append]; omega
      rw [getD_eq_getElem hk1, List.getElem_map, List.getElem_zip,
        getD_eq_getElem hk, getD_eq_getElem hk3]
    · intro k hk
      exact List.getD_append _ _ _ _ hk
    · intro k hk
      exact List.getD_append_right _ _ _ _ hk
    · intro hne
      rw [List.getD_append_right _ _ _ _ (le_refl _), Nat.sub_self]
  · intro primer c p h
    have helem := (akDec_elem _ _ _ _ h).2
    intro k hk
    have := helem k hk
    rwa [Nat.zero_add] at this

/-- **C9** witness: the encryption part applied at primer `"LEMON"` and
text `"ATTACKATDAWN"`, and the decryption part applied at the corresponding
ciphertext `"LXFOPKTMDCGN"` at position 5 (the primer length, where the key
symbol is the plaintext symbol at position 0). -/
theorem C9_autokey_keystream_witness :
    (∃ e, AutoKey.encryptText "ATTACKATDAWN".toList "LEMON".toList = .ok e ∧
      e.length = "ATTACKATDAWN".toList.length ∧
      (∀ k, k < "ATTACKATDAWN".toList.length →
        e.getD k 'A' = addTotal ("ATTACKATDAWN".toList.getD k 'A')
          (("LEMON".toList ++ "ATTACKATDAWN".toList).getD k 'A')) ∧
      (∀ k, k < "LEMON".toList.length →
        ("LEMON".toList ++ "ATTACKATDAWN".toList).getD k 'A'
          = "LEMON".toList.getD k 'A') ∧
      (∀ k, "LEMON".toList.length ≤ k →
        ("LEMON".toList ++ "ATTACKATDAWN".toList).getD k 'A'
          = "ATTACKATDAWN".toList.getD (k - "LEMON".toList.length) 'A') ∧
      ("ATTACKATDAWN".toList ≠ [] →
        ("LEMON".toList ++ "ATTACKATDAWN".toList).getD "LEMON".toList.length 'A'
          = "ATTACKATDAWN".toList.getD 0 'A')) ∧
      "ATTACKATDAWN".toList.getD 5 'A'
        = subTotal ((normalizeText "LXFOPKTMDCGN".toList).getD 5 'A')
            (("LEMON".toList ++ "ATTACKATDAWN".toList).getD 5 'A') :=
  ⟨C9_autokey_keystream.1 "LEMON".toList "ATTACKATDAWN".toList (by decide) (by decide),
   C9_autokey_keystream.2 "LEMON".toList "LXFOPKTMDCGN".toList "ATTACKATDAWN".toList
     (by decide) 5 (by decide)⟩
